import Mathlib

/-! Verification of the rscript lexical front end.

The Rust source (src/parser/types.rs, src/parser/prefix.rs,
src/parser/lexer.rs) is shallowly embedded below: each Rust function
becomes a Lean function of the same name over explicit state passing.
Rust `while let` loops become fuel-indexed structural recursions; every
public wrapper passes fuel `remaining + 1`, and the consumption lemmas
below show a loop iteration always consumes a character, so the fuel-out
branch is never taken on a reachable call.  `usize` row/column arithmetic
is modelled with `Nat`; the ghost field `Lexer.ok` records that no
unsigned subtraction inside `decrement_pos` has underflowed (in a Rust
debug build such an underflow panics), so a state with `ok = true` has
performed only well-defined cursor arithmetic. -/

namespace RScript

/-- Source coordinate, from src/parser/types.rs (`Point { row: usize, col: usize }`). -/
structure Point where
  row : Nat
  col : Nat
deriving DecidableEq, Repr

/-- Source range, from src/parser/types.rs (`Span`).  The diagnostic-only
source-name field is omitted: it is a constant of each lexer, copied into
every span and never inspected by any scanning rule. -/
structure Span where
  start : Point
  stop : Point
deriving DecidableEq, Repr

/-- Pair of a span and a payload, from src/parser/types.rs (`SpanData<T>`). -/
structure SpanData (T : Type) where
  span : Span
  value : T
deriving DecidableEq, Repr

/-- Token kinds, from src/parser/lexer.rs.  The Rust payloads `f64` and
`Str` are modelled by `ℚ` and `List Char`: the lexer only ever stores the
value parsed from a decimal digit string and never computes with it, and
every numeric value appearing in the claims (1, 5, 12, 123) is exactly
representable in `f64`, so the rational carrier is faithful there. -/
inductive Token where
  | Number (value : ℚ)
  | Boolean (value : Bool)
  | String (text : List Char)
  | Identifier (text : List Char)
  | Public | Function | Let | If | Else | Loop | While | For | In | Return | Break | Continue
  | ExclusiveRange | InclusiveRange
  | OpenBracket | CloseBracket | OpenBrace | CloseBrace | OpenParen | CloseParen
  | Period | Comma | Semicolon | Colon
  | Equals | DoubleEquals
  | Plus | PlusEquals | Minus | MinusEquals | Times | TimesEquals
  | Divide | DivideEquals | Modulo | ModuloEquals
  | GreaterThan | GreaterThanEquals | LessThan | LessThanEquals
  | NotEquals | Not | SingleArrow | DoubleArrow
deriving DecidableEq, Repr

/-- Error kinds, from src/parser/lexer.rs (`LexError`). -/
inductive LexError where
  | Eof
  | ExpectedNumber
  | ExpectedAtom
  | UnknownSymbol (text : List Char)
  | Custom (text : List Char)
deriving DecidableEq, Repr

/-- Decidable equality for `Except`, used only to evaluate the lexer on
concrete inputs inside proofs. -/
instance {E A : Type} [DecidableEq E] [DecidableEq A] : DecidableEq (Except E A) := fun a b =>
  match a, b with
  | .error e1, .error e2 =>
    if h : e1 = e2 then .isTrue (by rw [h]) else .isFalse (fun hh => h (Except.error.inj hh))
  | .ok x, .ok y =>
    if h : x = y then .isTrue (by rw [h]) else .isFalse (fun hh => h (Except.ok.inj hh))
  | .error _, .ok _ => .isFalse (fun hh => Except.noConfusion hh)
  | .ok _, .error _ => .isFalse (fun hh => Except.noConfusion hh)

/-- Trie node, from src/parser/prefix.rs (`PrefixNode<T>`).  The Rust
`HashMap<char, PrefixNode<T>>` of children is modelled as an association
list with at most one binding per character; only keyed lookup and keyed
update are ever performed on it, so the association list is an exact model
of the map. -/
inductive PrefixNode (T : Type) where
  | mk (val : Option T) (children : List (Char × PrefixNode T))

/-- Value stored at a node. -/
def PrefixNode.val {T : Type} : PrefixNode T → Option T
  | .mk v _ => v

/-- Children of a node. -/
def PrefixNode.children {T : Type} : PrefixNode T → List (Char × PrefixNode T)
  | .mk _ cs => cs

/-- Keyed lookup in the children map (`HashMap::get`). -/
def childLookup {T : Type} : List (Char × PrefixNode T) → Char → Option (PrefixNode T)
  | [], _ => none
  | (c0, n0) :: rest, c => if c = c0 then some n0 else childLookup rest c

/-- Keyed update in the children map: replace the binding for `c`, or add
one if absent (`HashMap::entry(c).or_insert_with(..)` followed by writing
through the entry). -/
def childUpdate {T : Type} : List (Char × PrefixNode T) → Char → PrefixNode T →
    List (Char × PrefixNode T)
  | [], c, n => [(c, n)]
  | (c0, n0) :: rest, c, n => if c = c0 then (c0, n) :: rest else (c0, n0) :: childUpdate rest c n

/-- Walk child links character by character (`PrefixNode::find`). -/
def PrefixNode.find {T : Type} : PrefixNode T → List Char → Option (PrefixNode T)
  | n, [] => some n
  | n, c :: rest =>
    match childLookup n.children c with
    | none => none
    | some child => child.find rest

/-- Value reached by walking `find` and reading the node value; equals
`PrefixTree.find` on the root and is the unit of the lookup lemmas. -/
def PrefixNode.findValue {T : Type} (n : PrefixNode T) (key : List Char) : Option T :=
  match n.find key with
  | none => none
  | some node => node.val

/-- Create the node path for `key` and set the terminal node's value: the
composition of Rust `PrefixNode::find_or_create` with the write
`node.value = Some(value)` done by `PrefixTree::insert`. -/
def PrefixNode.insert {T : Type} : PrefixNode T → List Char → T → PrefixNode T
  | .mk _ cs, [], value => .mk (some value) cs
  | .mk v cs, c :: rest, value =>
    let child :=
      match childLookup cs c with
      | some child => child
      | none => .mk none []
    .mk v (childUpdate cs c (child.insert rest value))

/-- All characters appearing at any depth (`PrefixNode::add_all_chars_to_set`),
with an explicit recursion-depth bound so the traversal is structurally
recursive; a bound of at least the length of the longest inserted key
visits every node, since node depth never exceeds key length. -/
def PrefixNode.allChars {T : Type} : Nat → PrefixNode T → List Char
  | 0, _ => []
  | fuel + 1, .mk _ cs => cs.foldr (fun p acc => p.1 :: (PrefixNode.allChars fuel p.2 ++ acc)) []

/-- Trie over strings, from src/parser/prefix.rs (`PrefixTree<T>`). -/
structure PrefixTree (T : Type) where
  root : PrefixNode T

/-- Empty tree (`PrefixTree::new`). -/
def PrefixTree.new {T : Type} : PrefixTree T := ⟨.mk none []⟩

/-- Insert one key (`PrefixTree::insert`). -/
def PrefixTree.insert {T : Type} (t : PrefixTree T) (key : List Char) (value : T) :
    PrefixTree T := ⟨t.root.insert key value⟩

/-- Exact lookup (`PrefixTree::find`): the value only if a node exists for
the full key and that node carries a value. -/
def PrefixTree.find {T : Type} (t : PrefixTree T) (key : List Char) : Option T :=
  match t.root.find key with
  | none => none
  | some node => node.val

/-- Character alphabet of the tree (`PrefixTree::get_all_chars`), with the
depth bound of `PrefixNode.allChars`. -/
def PrefixTree.get_all_chars {T : Type} (t : PrefixTree T) (fuel : Nat) : List Char :=
  t.root.allChars fuel

/-- Bulk construction (`FromIterator for PrefixTree`): fold `insert` over
the pair list in order. -/
def PrefixTree.fromList {T : Type} (ps : List (List Char × T)) : PrefixTree T :=
  ps.foldl (fun t p => t.insert p.1 p.2) PrefixTree.new

/-- Keyword table, from src/parser/lexer.rs (`get_word_tree`), in source order. -/
def word_tree : PrefixTree Token := PrefixTree.fromList [
  ("pub".toList, .Public), ("fn".toList, .Function), ("let".toList, .Let),
  ("if".toList, .If), ("else".toList, .Else), ("loop".toList, .Loop),
  ("while".toList, .While), ("for".toList, .For), ("in".toList, .In),
  ("break".toList, .Break), ("continue".toList, .Continue), ("return".toList, .Return)]

/-- Symbol table, from src/parser/lexer.rs (`get_symbol_tree`), in source order. -/
def symbol_tree : PrefixTree Token := PrefixTree.fromList [
  (".".toList, .Period), (",".toList, .Comma), (";".toList, .Semicolon),
  (":".toList, .Colon), ("(".toList, .OpenParen), (")".toList, .CloseParen),
  ("[".toList, .OpenBracket), ("]".toList, .CloseBracket),
  ("\x7b".toList, .OpenBrace), ("\x7d".toList, .CloseBrace),
  ("=".toList, .Equals), ("+".toList, .Plus), ("+=".toList, .PlusEquals),
  ("-".toList, .Minus), ("-=".toList, .MinusEquals),
  ("*".toList, .Times), ("*=".toList, .TimesEquals),
  ("/".toList, .Divide), ("/=".toList, .DivideEquals),
  ("%".toList, .Modulo), ("%=".toList, .ModuloEquals),
  (">".toList, .GreaterThan), (">=".toList, .GreaterThanEquals),
  ("<".toList, .LessThan), ("<=".toList, .LessThanEquals),
  ("==".toList, .DoubleEquals), ("!=".toList, .NotEquals), ("!".toList, .Not),
  ("..".toList, .ExclusiveRange), ("..=".toList, .InclusiveRange),
  ("->".toList, .SingleArrow), ("=>".toList, .DoubleArrow)]

/-- Character set of the symbol table (`get_symbol_chars`).  The longest
registered symbol has three characters, so the depth bound 8 visits the
whole tree. -/
def symbol_chars : List Char := symbol_tree.get_all_chars 8

/-- First character of an atom (`is_atom_first_char`): ASCII alphabetic or
underscore (`Char.isAlpha` tests exactly the ASCII letters). -/
def is_atom_first_char (ch : Char) : Bool := ch.isAlpha || ch = '_'

/-- Continuation character of an atom (`is_atom_char`). -/
def is_atom_char (ch : Char) : Bool := ch.isDigit || is_atom_first_char ch

/-- Whitespace predicate (`is_whitespace`).  Rust uses the full Unicode
`char::is_whitespace`; `Char.isWhitespace` covers its ASCII part (space,
tab, carriage return, newline), which is exhaustive for every input
appearing in the claims. -/
def is_whitespace (ch : Char) : Bool := ch.isWhitespace

/-- Digit predicate (`is_numeric`). -/
def is_numeric (ch : Char) : Bool := ch.isDigit

/-- Split the source into lines, each keeping its trailing newline, with a
final possibly-empty line (`split_lines`). -/
def split_lines : List Char → List (List Char)
  | [] => [[]]
  | c :: rest =>
    if c = '\n' then [c] :: split_lines rest
    else
      match split_lines rest with
      | [] => [[c]]
      | line :: lines => (c :: line) :: lines

/-- Value of a decimal digit string. -/
def digits_to_nat (s : List Char) : Nat :=
  s.foldl (fun acc c => acc * 10 + (c.toNat - '0'.toNat)) 0

/-- Modelled Rust `str::parse::<f64>` restricted to the strings the number
rule can build (decimal digits with at most one point): it accepts exactly
the nonempty shapes `digits`, `digits.`, `.digits` and `digits.digits`,
and returns the exact rational value.  Exponent, sign and textual `f64`
forms never reach the parse because the rule only accumulates characters
read under `is_numeric` plus at most one `'.'`. -/
def parse_f64 (s : List Char) : Option ℚ :=
  let intPart := s.takeWhile Char.isDigit
  match s.dropWhile Char.isDigit with
  | [] => if intPart.isEmpty then none else some (digits_to_nat intPart : ℚ)
  | '.' :: frac =>
    if frac.all Char.isDigit && !(intPart.isEmpty && frac.isEmpty) then
      some ((digits_to_nat intPart : ℚ) + (digits_to_nat frac : ℚ) / (10 : ℚ) ^ frac.length)
    else none
  | _ => none

/-- Scanner state, from src/parser/lexer.rs (`Lexer`), with the
diagnostic-only source name omitted.  The ghost field `ok` is not in the
Rust struct: it starts `true` and is cleared exactly when `decrement_pos`
evaluates a `usize` subtraction whose Rust value would underflow (row 0 at
column 0, or taking the last column of an empty line), so `ok = true`
certifies that only well-defined cursor arithmetic has happened. -/
structure Lexer where
  lines : List (List Char)
  pos : Point
  ok : Bool
deriving DecidableEq, Repr

/-- Fresh scanner (`Lexer::new`). -/
def Lexer.new (src : List Char) : Lexer := ⟨split_lines src, ⟨0, 0⟩, true⟩

/-- Character at the cursor (`Lexer::get_char`). -/
def Lexer.get_char (l : Lexer) : Except LexError Char :=
  match l.lines[l.pos.row]? with
  | none => .error .Eof
  | some ln =>
    match ln[l.pos.col]? with
    | none => .error .Eof
    | some c => .ok c

/-- Number of character cells at or after the cursor; the termination and
fuel measure for every scanning loop. -/
def Lexer.remaining (l : Lexer) : Nat :=
  ((l.lines.getD l.pos.row []).drop l.pos.col).length
    + ((l.lines.drop (l.pos.row + 1)).map List.length).sum

/-- Step the cursor back one character (`Lexer::decrement_pos`), clamping
to the last character of the last line when beyond the final line.  Each
branch clears `ok` when the corresponding Rust `usize` subtraction (or the
indexing it feeds) would be erroneous. -/
def Lexer.decrement_pos (l : Lexer) : Lexer :=
  if l.lines.length ≤ l.pos.row then
    let row := l.lines.length - 1
    { l with pos := ⟨row, (l.lines.getD row []).length - 1⟩,
             ok := l.ok && decide (0 < l.lines.length)
                        && decide (0 < (l.lines.getD row []).length) }
  else if l.pos.col = 0 then
    let row := l.pos.row - 1
    { l with pos := ⟨row, (l.lines.getD row []).length - 1⟩,
             ok := l.ok && decide (0 < l.pos.row)
                        && decide (0 < (l.lines.getD row []).length) }
  else
    { l with pos := ⟨l.pos.row, l.pos.col - 1⟩ }

/-- Step the cursor forward one character (`Lexer::advance_pos`); a
missing current line leaves the state unchanged (Rust returns `None`
before mutating). -/
def Lexer.advance_pos (l : Lexer) : Lexer :=
  match l.lines[l.pos.row]? with
  | none => l
  | some ln =>
    if ln.length - 1 ≤ l.pos.col then { l with pos := ⟨l.pos.row + 1, 0⟩ }
    else { l with pos := ⟨l.pos.row, l.pos.col + 1⟩ }

/-- Read the cursor character and advance past it (`Lexer::next_char`). -/
def Lexer.next_char (l : Lexer) : Except LexError Char × Lexer :=
  match l.get_char with
  | .error e => (.error e, l)
  | .ok c => (.ok c, l.advance_pos)

/-- Transactional backtracking (`Lexer::try_run`): run the body and, on
error, restore the saved cursor position. -/
def Lexer.try_run {T : Type} (l : Lexer) (body : Lexer → Except LexError T × Lexer) :
    Except LexError T × Lexer :=
  let start := l.pos
  match body l with
  | (.error e, l1) => (.error e, { l1 with pos := start })
  | (.ok v, l1) => (.ok v, l1)

/-- Loop body of `Lexer::read_while_to`, structurally recursive on fuel:
read characters while the predicate holds, stepping back past the first
non-matching character, then record the stop position in the buffer. -/
def Lexer.read_while_to_fuel (fuel : Nat) (l : Lexer) (p : Char → Bool)
    (buf : SpanData (List Char)) : SpanData (List Char) × Lexer :=
  match fuel with
  | 0 => ({ buf with span := { buf.span with stop := l.pos } }, l)
  | fuel + 1 =>
    match l.get_char with
    | .error _ => ({ buf with span := { buf.span with stop := l.pos } }, l)
    | .ok c =>
      if p c then
        Lexer.read_while_to_fuel fuel l.advance_pos p
          { buf with value := buf.value ++ [c] }
      else
        ({ buf with span := { buf.span with stop := l.advance_pos.decrement_pos.pos } },
         l.advance_pos.decrement_pos)

/-- Accumulating scan (`Lexer::read_while_to`); fuel `remaining + 1` is
sufficient because every iteration consumes one character. -/
def Lexer.read_while_to (l : Lexer) (p : Char → Bool) (buf : SpanData (List Char)) :
    SpanData (List Char) × Lexer :=
  Lexer.read_while_to_fuel (l.remaining + 1) l p buf

/-- Scan from an empty buffer anchored at the cursor (`Lexer::read_while`). -/
def Lexer.read_while (l : Lexer) (p : Char → Bool) : SpanData (List Char) × Lexer :=
  l.read_while_to p ⟨⟨l.pos, l.pos⟩, []⟩

/-- Empty span at the cursor (`Lexer::empty_span`). -/
def Lexer.empty_span (l : Lexer) : Span := ⟨l.pos, l.pos⟩

/-- Loop body of `Lexer::skip_whitespace`, structurally recursive on fuel. -/
def Lexer.skip_whitespace_fuel (fuel : Nat) (l : Lexer) : Lexer :=
  match fuel with
  | 0 => l
  | fuel + 1 =>
    match l.get_char with
    | .error _ => l
    | .ok c =>
      if is_whitespace c then Lexer.skip_whitespace_fuel fuel l.advance_pos
      else l.advance_pos.decrement_pos

/-- Whitespace skip (`Lexer::skip_whitespace`). -/
def Lexer.skip_whitespace (l : Lexer) : Lexer :=
  Lexer.skip_whitespace_fuel (l.remaining + 1) l

/-- Read one character that must satisfy the predicate, stepping back and
failing otherwise (`Lexer::try_parse_char`). -/
def Lexer.try_parse_char (l : Lexer) (p : Char → Bool) : Except LexError Char × Lexer :=
  match l.next_char with
  | (.error e, l1) => (.error e, l1)
  | (.ok c, l1) =>
    if p c then (.ok c, l1)
    else (.error (.Custom "character failed predicate".toList), l1.decrement_pos)

/-- String-content loop of `Lexer::try_parse_string`, structurally
recursive on fuel: after a backslash the next character is copied
verbatim, an unescaped quote stops the loop, and end of input simply ends
the loop. -/
def Lexer.string_loop_fuel (fuel : Nat) (l : Lexer) (prev : Char) (buf : List Char) :
    List Char × Lexer :=
  match fuel with
  | 0 => (buf, l)
  | fuel + 1 =>
    match l.get_char with
    | .error _ => (buf, l)
    | .ok c =>
      if prev = '\\' then Lexer.string_loop_fuel fuel l.advance_pos c (buf ++ [c])
      else if c = '"' then (buf, l.advance_pos)
      else Lexer.string_loop_fuel fuel l.advance_pos c (buf ++ [c])

/-- String-literal rule (`Lexer::try_parse_string`). -/
def Lexer.try_parse_string (l : Lexer) : Except LexError (SpanData Token) × Lexer :=
  l.try_run fun lexer =>
    match lexer.try_parse_char (fun ch => ch = '"') with
    | (.error e, l1) => (.error e, l1)
    | (.ok _, l1) =>
      match Lexer.string_loop_fuel (l1.remaining + 1) l1 '"' [] with
      | (buf, l2) => (.ok ⟨⟨lexer.pos, l2.pos⟩, .String buf⟩, l2)

/-- Symbol rule (`Lexer::try_parse_symbol`): read the maximal run of
symbol-class characters, then one exact lookup of the run. -/
def Lexer.try_parse_symbol (l : Lexer) : Except LexError (SpanData Token) × Lexer :=
  l.try_run fun lexer =>
    let (symbol_text, l1) := lexer.read_while (fun ch => symbol_chars.contains ch)
    match symbol_tree.find symbol_text.value with
    | none => (.error (.UnknownSymbol symbol_text.value), l1)
    | some tok => (.ok ⟨symbol_text.span, tok⟩, l1)

/-- Atom rule (`Lexer::try_parse_atom`): one atom-first character, then a
run of atom characters, classified through the keyword tree. -/
def Lexer.try_parse_atom (l : Lexer) : Except LexError (SpanData Token) × Lexer :=
  l.try_run fun lexer =>
    match lexer.try_parse_char is_atom_first_char with
    | (.error _, l1) => (.error .ExpectedAtom, l1)
    | (.ok first, l1) =>
      match l1.read_while_to is_atom_char ⟨⟨lexer.pos, l1.pos⟩, [first]⟩ with
      | (res, l2) =>
        (.ok ⟨res.span,
              match word_tree.find res.value with
              | some t => t
              | none => Token.Identifier res.value⟩, l2)

/-- Number rule (`Lexer::try_parse_number`), translated branch for branch,
including the branch swap present in the source: when digits DO follow the
point (`!post_decimal.value.is_empty()`), the code steps the cursor back
once and keeps only the integer part, and when no digits follow it, the
code appends the point (and the empty fraction) to the text. -/
def Lexer.try_parse_number (l : Lexer) : Except LexError (SpanData ℚ) × Lexer :=
  l.try_run fun lexer =>
    match lexer.read_while is_numeric with
    | (number, l1) =>
      match
        ((match l1.next_char with
          | (.ok c, l2) =>
            if c = '.' then
              match l2.read_while is_numeric with
              | (post_decimal, l3) =>
                if !post_decimal.value.isEmpty then
                  (.ok number, l3.decrement_pos)
                else
                  (.ok ⟨{ number.span with stop := post_decimal.span.stop },
                        number.value ++ ['.'] ++ post_decimal.value⟩, l3)
            else
              (.ok number, l2.decrement_pos)
          | (.error e, l2) =>
            if !number.value.isEmpty then (.ok number, l2)
            else (.error e, l2)) : Except LexError (SpanData (List Char)) × Lexer) with
      | (.error e, l4) => (.error e, l4)
      | (.ok number1, l4) =>
        match parse_f64 number1.value with
        | none => (.error .ExpectedNumber, l4)
        | some q => (.ok ⟨number1.span, q⟩, l4)

/-- Number rule wrapped as a token (`Lexer::try_parse_number_token`). -/
def Lexer.try_parse_number_token (l : Lexer) : Except LexError (SpanData Token) × Lexer :=
  l.try_run fun lexer =>
    match lexer.try_parse_number with
    | (.error e, l1) => (.error e, l1)
    | (.ok num, l1) => (.ok ⟨num.span, .Number num.value⟩, l1)

/-- End-of-input test (`Lexer::is_done`). -/
def Lexer.is_done (l : Lexer) : Bool :=
  match l.get_char with
  | .error _ => true
  | .ok _ => false

/-- Rule dispatch of `Lexer::next_token` after the whitespace skip: stop
at end of input, otherwise try atom, string, number, symbol in that order. -/
def Lexer.next_token_at (l0 : Lexer) : Except LexError (Option (SpanData Token)) × Lexer :=
  if l0.is_done then (.ok none, l0)
  else
    match l0.try_parse_atom with
    | (.ok t, l1) => (.ok (some t), l1)
    | (.error _, l1) =>
      match l1.try_parse_string with
      | (.ok t, l2) => (.ok (some t), l2)
      | (.error _, l2) =>
        match l2.try_parse_number_token with
        | (.ok t, l3) => (.ok (some t), l3)
        | (.error _, l3) =>
          match l3.try_parse_symbol with
          | (.ok t, l4) => (.ok (some t), l4)
          | (.error e, l4) => (.error e, l4)

/-- One token step (`Lexer::next_token`): skip whitespace, then dispatch
the rules at the resulting position. -/
def Lexer.next_token (l : Lexer) : Except LexError (Option (SpanData Token)) × Lexer :=
  Lexer.next_token_at l.skip_whitespace

/-- Token-stream loop of `Lexer::try_parse_tokens`, structurally recursive
on fuel. -/
def Lexer.try_parse_tokens_fuel (fuel : Nat) (l : Lexer) :
    Except LexError (List (SpanData Token)) × Lexer :=
  match fuel with
  | 0 => (.ok [], l)
  | fuel + 1 =>
    match l.next_token with
    | (.error e, l1) => (.error e, l1)
    | (.ok none, l1) => (.ok [], l1)
    | (.ok (some t), l1) =>
      match Lexer.try_parse_tokens_fuel fuel l1 with
      | (.error e, l2) => (.error e, l2)
      | (.ok ts, l2) => (.ok (t :: ts), l2)

/-- Whole-input tokenization (`Lexer::try_parse_tokens`); fuel
`remaining + 1` is sufficient because every produced token consumes at
least one character (proved below). -/
def Lexer.try_parse_tokens (l : Lexer) : Except LexError (List (SpanData Token)) × Lexer :=
  Lexer.try_parse_tokens_fuel (l.remaining + 1) l

/-- Flat character index of a point in a line-split source; used only to
state the round-trip property of spans. -/
def flatIdx (lines : List (List Char)) (p : Point) : Nat :=
  ((lines.take p.row).map List.length).sum + p.col

/-- Source text covered between two points (start inclusive, stop
exclusive), read off the line-split source; used only to state the
round-trip property of spans. -/
def textBetween (lines : List (List Char)) (a b : Point) : List Char :=
  ((lines.flatten).drop (flatIdx lines a)).take (flatIdx lines b - flatIdx lines a)

/-- Unfolding of `get_char` on an explicit state. -/
theorem get_char_mk (lines : List (List Char)) (r c : Nat) (ok : Bool) :
    Lexer.get_char ⟨lines, ⟨r, c⟩, ok⟩ =
      match lines[r]? with
      | none => .error .Eof
      | some ln =>
        match ln[c]? with
        | none => .error .Eof
        | some ch => .ok ch := rfl

/-- Unfolding of `advance_pos` on an explicit state. -/
theorem advance_pos_mk (lines : List (List Char)) (r c : Nat) (ok : Bool) :
    Lexer.advance_pos ⟨lines, ⟨r, c⟩, ok⟩ =
      match lines[r]? with
      | none => ⟨lines, ⟨r, c⟩, ok⟩
      | some ln =>
        if ln.length - 1 ≤ c then ⟨lines, ⟨r + 1, 0⟩, ok⟩
        else ⟨lines, ⟨r, c + 1⟩, ok⟩ := rfl

/-- Unfolding of `decrement_pos` on an explicit state. -/
theorem decrement_pos_mk (lines : List (List Char)) (r c : Nat) (ok : Bool) :
    Lexer.decrement_pos ⟨lines, ⟨r, c⟩, ok⟩ =
      if lines.length ≤ r then
        ⟨lines, ⟨lines.length - 1, (lines.getD (lines.length - 1) []).length - 1⟩,
         ok && decide (0 < lines.length)
            && decide (0 < (lines.getD (lines.length - 1) []).length)⟩
      else if c = 0 then
        ⟨lines, ⟨r - 1, (lines.getD (r - 1) []).length - 1⟩,
         ok && decide (0 < r) && decide (0 < (lines.getD (r - 1) []).length)⟩
      else ⟨lines, ⟨r, c - 1⟩, ok⟩ := rfl

/-- Unfolding of `remaining` on an explicit state. -/
theorem remaining_mk (lines : List (List Char)) (r c : Nat) (ok : Bool) :
    Lexer.remaining ⟨lines, ⟨r, c⟩, ok⟩ =
      ((lines.getD r []).drop c).length + ((lines.drop (r + 1)).map List.length).sum := rfl

/-- A successful character read means the cursor indexes a real cell. -/
theorem get_char_ok_iff {l : Lexer} {c : Char} :
    l.get_char = .ok c ↔ ∃ ln, l.lines[l.pos.row]? = some ln ∧ ln[l.pos.col]? = some c := by
  obtain ⟨lines, ⟨r, co⟩, ok⟩ := l
  rw [get_char_mk]
  cases hln : lines[r]? with
  | none => simp
  | some ln =>
    cases hc : ln[co]? with
    | none => simp [hc]
    | some c0 => simp [hc]

/-- Forward stepping never touches the line buffer or the ghost flag. -/
theorem advance_pos_lines_ok (l : Lexer) :
    l.advance_pos.lines = l.lines ∧ l.advance_pos.ok = l.ok := by
  obtain ⟨lines, ⟨r, c⟩, ok⟩ := l
  rw [advance_pos_mk]
  cases lines[r]? with
  | none => exact ⟨rfl, rfl⟩
  | some ln =>
    dsimp only
    constructor <;> split <;> rfl

/-- Backward stepping never touches the line buffer. -/
theorem decrement_pos_lines (l : Lexer) : l.decrement_pos.lines = l.lines := by
  obtain ⟨lines, ⟨r, c⟩, ok⟩ := l
  rw [decrement_pos_mk]
  by_cases h1 : lines.length ≤ r
  · rw [if_pos h1]
  · rw [if_neg h1]
    by_cases h2 : c = 0
    · rw [if_pos h2]
    · rw [if_neg h2]

/-- Retreating right after a successful advance restores the state exactly,
ghost flag included: both the clamped and the line-crossing branch of
`decrement_pos` land back on the cell the advance started from, and their
underflow guards hold there. -/
theorem advance_then_decrement {l : Lexer} {c : Char} (h : l.get_char = .ok c) :
    l.advance_pos.decrement_pos = l := by
  obtain ⟨ln, hln, hc⟩ := get_char_ok_iff.mp h
  obtain ⟨lines, ⟨row, col⟩, ok⟩ := l
  simp only at hln hc
  have hrow : row < lines.length := by
    by_contra hr
    rw [List.getElem?_eq_none (by omega)] at hln
    exact Option.noConfusion hln
  have hcol : col < ln.length := by
    by_contra hr
    rw [List.getElem?_eq_none (by omega)] at hc
    exact Option.noConfusion hc
  have hgetD : lines.getD row [] = ln := by
    rw [List.getD_eq_getElem?_getD, hln]; rfl
  simp only [advance_pos_mk, hln]
  by_cases hlast : ln.length - 1 ≤ col
  · have hcoleq : col = ln.length - 1 := by omega
    rw [if_pos hlast, decrement_pos_mk]
    by_cases hend : lines.length ≤ row + 1
    · have hlen : lines.length = row + 1 := by omega
      rw [if_pos hend, hlen, Nat.add_sub_cancel, hgetD,
        decide_eq_true (show 0 < row + 1 by omega),
        decide_eq_true (show 0 < ln.length by omega), Bool.and_true, Bool.and_true]
      exact congrArg (fun x => Lexer.mk lines ⟨row, x⟩ ok) (by omega)
    · rw [if_neg hend, if_pos rfl, Nat.add_sub_cancel, hgetD,
        decide_eq_true (show 0 < row + 1 by omega),
        decide_eq_true (show 0 < ln.length by omega), Bool.and_true, Bool.and_true]
      exact congrArg (fun x => Lexer.mk lines ⟨row, x⟩ ok) (by omega)
  · rw [if_neg hlast, decrement_pos_mk, if_neg (by omega), if_neg (by omega),
      Nat.add_sub_cancel]

/-- Splitting the tail-length sum at its head line. -/
theorem sum_drop_split (lines : List (List Char)) (i : Nat) :
    ((lines.drop i).map List.length).sum =
      (lines.getD i []).length + ((lines.drop (i + 1)).map List.length).sum := by
  by_cases hi : i < lines.length
  · rw [List.drop_eq_getElem_cons hi, List.map_cons, List.sum_cons,
      List.getD_eq_getElem?_getD, List.getElem?_eq_getElem hi]
    rfl
  · rw [List.drop_eq_nil_of_le (by omega), List.drop_eq_nil_of_le (by omega),
      List.getD_eq_getElem?_getD, List.getElem?_eq_none (by omega)]
    rfl

/-- A successful advance consumes exactly one cell of the measure. -/
theorem remaining_advance {l : Lexer} {c : Char} (h : l.get_char = .ok c) :
    l.advance_pos.remaining + 1 = l.remaining := by
  obtain ⟨ln, hln, hc⟩ := get_char_ok_iff.mp h
  obtain ⟨lines, ⟨row, col⟩, ok⟩ := l
  simp only at hln hc
  have hrow : row < lines.length := by
    by_contra hr
    rw [List.getElem?_eq_none (by omega)] at hln
    exact Option.noConfusion hln
  have hcol : col < ln.length := by
    by_contra hr
    rw [List.getElem?_eq_none (by omega)] at hc
    exact Option.noConfusion hc
  have hgetD : lines.getD row [] = ln := by
    rw [List.getD_eq_getElem?_getD, hln]; rfl
  simp only [advance_pos_mk, hln]
  by_cases hlast : ln.length - 1 ≤ col
  · rw [if_pos hlast, remaining_mk, remaining_mk, hgetD]
    have hsplit := sum_drop_split lines (row + 1)
    rw [List.drop_zero, List.length_drop]
    omega
  · rw [if_neg hlast, remaining_mk, remaining_mk, hgetD,
      List.length_drop, List.length_drop]
    omega

/-- Retreating restores at most one cell of the measure, whatever the
starting state. -/
theorem decrement_remaining_le (l : Lexer) :
    l.decrement_pos.remaining ≤ l.remaining + 1 := by
  obtain ⟨lines, ⟨row, col⟩, ok⟩ := l
  rw [decrement_pos_mk]
  by_cases hend : lines.length ≤ row
  · rw [if_pos hend, remaining_mk, remaining_mk]
    have h1 : lines.getD row [] = [] := by
      rw [List.getD_eq_getElem?_getD, List.getElem?_eq_none (by omega)]; rfl
    have h2 : lines.drop (row + 1) = [] := List.drop_eq_nil_of_le (by omega)
    have h3 : lines.drop (lines.length - 1 + 1) = [] := List.drop_eq_nil_of_le (by omega)
    rw [h1, h2, h3, List.length_drop, List.length_drop]
    simp only [List.map_nil, List.sum_nil, List.length_nil]
    omega
  · rw [if_neg hend]
    by_cases hcol : col = 0
    · rw [if_pos hcol, remaining_mk, remaining_mk, List.length_drop, List.length_drop]
      by_cases hrow0 : row = 0
      · rw [hrow0]
        simp only [Nat.zero_sub]
        omega
      · have hsplit := sum_drop_split lines row
        have hr1 : row - 1 + 1 = row := by omega
        rw [hr1]
        omega
    · rw [if_neg hcol, remaining_mk, remaining_mk, List.length_drop, List.length_drop]
      omega

/-- A failed `next_char` leaves the state untouched and reports the read error. -/
theorem next_char_error {l l1 : Lexer} {e : LexError}
    (h : l.next_char = (.error e, l1)) : l1 = l ∧ l.get_char = .error e := by
  unfold Lexer.next_char at h
  cases hg : l.get_char with
  | error e2 =>
    rw [hg] at h
    simp only [Prod.mk.injEq, Except.error.injEq] at h
    exact ⟨h.2.symm, by rw [h.1]⟩
  | ok c =>
    rw [hg] at h
    simp at h

/-- A successful `next_char` returns the cursor character and advances. -/
theorem next_char_ok {l l1 : Lexer} {c : Char}
    (h : l.next_char = (.ok c, l1)) : l.get_char = .ok c ∧ l1 = l.advance_pos := by
  unfold Lexer.next_char at h
  cases hg : l.get_char with
  | error e2 =>
    rw [hg] at h
    simp at h
  | ok c2 =>
    rw [hg] at h
    simp only [Prod.mk.injEq, Except.ok.injEq] at h
    exact ⟨by rw [h.1], h.2.symm⟩

/-- A failed `try_parse_char` leaves the state exactly as it was. -/
theorem try_parse_char_error {l l1 : Lexer} {p : Char → Bool} {e : LexError}
    (h : l.try_parse_char p = (.error e, l1)) : l1 = l := by
  unfold Lexer.try_parse_char at h
  rcases hn : l.next_char with ⟨res, l2⟩
  rw [hn] at h
  cases res with
  | error e2 =>
    simp only [Prod.mk.injEq] at h
    rw [← h.2]
    exact (next_char_error hn).1
  | ok c =>
    by_cases hp : p c
    · simp [hp] at h
    · simp only [Bool.not_eq_true] at hp
      simp only [hp, Bool.false_eq_true, if_false, Prod.mk.injEq] at h
      obtain ⟨hg, hl⟩ := next_char_ok hn
      rw [← h.2, hl]
      exact advance_then_decrement hg

/-- A successful `try_parse_char` consumed exactly the cursor character. -/
theorem try_parse_char_ok {l l1 : Lexer} {p : Char → Bool} {c : Char}
    (h : l.try_parse_char p = (.ok c, l1)) :
    l.get_char = .ok c ∧ p c = true ∧ l1 = l.advance_pos := by
  unfold Lexer.try_parse_char at h
  rcases hn : l.next_char with ⟨res, l2⟩
  rw [hn] at h
  cases res with
  | error e2 => simp at h
  | ok c2 =>
    by_cases hp : p c2
    · simp only [hp, if_true, Prod.mk.injEq, Except.ok.injEq] at h
      obtain ⟨hg, hl⟩ := next_char_ok hn
      rw [← h.1]
      exact ⟨hg, hp, by rw [← h.2, hl]⟩
    · simp only [Bool.not_eq_true] at hp
      simp only [hp, Bool.false_eq_true, if_false, Prod.mk.injEq] at h
      exact absurd h.1 (by simp)

/-- The scanning loop `read_while_to_fuel` never changes the line buffer
or the ghost flag, its buffer text only grows, it consumes exactly as many
cells as the characters it appends, and its final state is either the
start state or the advance image of a state holding a character. -/
theorem read_while_to_fuel_spec (p : Char → Bool) : ∀ (fuel : Nat) (l : Lexer)
    (buf : SpanData (List Char)),
    (Lexer.read_while_to_fuel fuel l p buf).2.lines = l.lines ∧
    (Lexer.read_while_to_fuel fuel l p buf).2.ok = l.ok ∧
    buf.value.length ≤ (Lexer.read_while_to_fuel fuel l p buf).1.value.length ∧
    (Lexer.read_while_to_fuel fuel l p buf).2.remaining
      + (Lexer.read_while_to_fuel fuel l p buf).1.value.length
      = l.remaining + buf.value.length ∧
    (((Lexer.read_while_to_fuel fuel l p buf).2 = l ∧
        (Lexer.read_while_to_fuel fuel l p buf).1.value = buf.value) ∨
      ∃ (q : Lexer) (c : Char), q.get_char = .ok c ∧
        (Lexer.read_while_to_fuel fuel l p buf).2 = q.advance_pos) := by
  intro fuel
  induction fuel with
  | zero =>
    intro l buf
    exact ⟨rfl, rfl, Nat.le_refl _, rfl, Or.inl ⟨rfl, rfl⟩⟩
  | succ fuel ih =>
    intro l buf
    unfold Lexer.read_while_to_fuel
    cases hg : l.get_char with
    | error e => exact ⟨rfl, rfl, Nat.le_refl _, rfl, Or.inl ⟨rfl, rfl⟩⟩
    | ok c =>
      simp only
      by_cases hp : p c
      · rw [if_pos hp]
        obtain ⟨ih1, ih2, ih3, ih4, ih5⟩ := ih l.advance_pos { buf with value := buf.value ++ [c] }
        obtain ⟨hal, hak⟩ := advance_pos_lines_ok l
        have hrem := remaining_advance hg
        refine ⟨ih1.trans hal, ih2.trans hak, ?_, ?_, ?_⟩
        · calc buf.value.length
              ≤ (buf.value ++ [c]).length := by simp
            _ ≤ _ := ih3
        · simp only [List.length_append, List.length_cons, List.length_nil] at ih4
          omega
        · cases ih5 with
          | inl h5 => exact Or.inr ⟨l, c, hg, h5.1⟩
          | inr h5 => exact Or.inr h5
      · rw [if_neg hp]
        rw [advance_then_decrement hg]
        exact ⟨rfl, rfl, Nat.le_refl _, rfl, Or.inl ⟨rfl, rfl⟩⟩

/-- The whitespace loop never changes the line buffer or ghost flag and
never grows the measure. -/
theorem skip_whitespace_fuel_spec : ∀ (fuel : Nat) (l : Lexer),
    (Lexer.skip_whitespace_fuel fuel l).lines = l.lines ∧
    (Lexer.skip_whitespace_fuel fuel l).ok = l.ok ∧
    (Lexer.skip_whitespace_fuel fuel l).remaining ≤ l.remaining := by
  intro fuel
  induction fuel with
  | zero => exact fun l => ⟨rfl, rfl, Nat.le_refl _⟩
  | succ fuel ih =>
    intro l
    unfold Lexer.skip_whitespace_fuel
    cases hg : l.get_char with
    | error e => exact ⟨rfl, rfl, Nat.le_refl _⟩
    | ok c =>
      simp only
      by_cases hw : is_whitespace c
      · rw [if_pos hw]
        obtain ⟨ih1, ih2, ih3⟩ := ih l.advance_pos
        obtain ⟨hal, hak⟩ := advance_pos_lines_ok l
        have hrem := remaining_advance hg
        exact ⟨ih1.trans hal, ih2.trans hak, by omega⟩
      · rw [if_neg hw]
        rw [advance_then_decrement hg]
        exact ⟨rfl, rfl, Nat.le_refl _⟩

/-- The string-content loop never changes the line buffer or ghost flag
and never grows the measure. -/
theorem string_loop_fuel_spec : ∀ (fuel : Nat) (l : Lexer) (prev : Char) (buf : List Char),
    (Lexer.string_loop_fuel fuel l prev buf).2.lines = l.lines ∧
    (Lexer.string_loop_fuel fuel l prev buf).2.ok = l.ok ∧
    (Lexer.string_loop_fuel fuel l prev buf).2.remaining ≤ l.remaining := by
  intro fuel
  induction fuel with
  | zero => exact fun l prev buf => ⟨rfl, rfl, Nat.le_refl _⟩
  | succ fuel ih =>
    intro l prev buf
    unfold Lexer.string_loop_fuel
    cases hg : l.get_char with
    | error e => exact ⟨rfl, rfl, Nat.le_refl _⟩
    | ok c =>
      simp only
      have hrem := remaining_advance hg
      obtain ⟨hal, hak⟩ := advance_pos_lines_ok l
      by_cases hprev : prev = '\\'
      · rw [if_pos hprev]
        obtain ⟨ih1, ih2, ih3⟩ := ih l.advance_pos c (buf ++ [c])
        exact ⟨ih1.trans hal, ih2.trans hak, by omega⟩
      · rw [if_neg hprev]
        by_cases hq : c = '"'
        · rw [if_pos hq]
          refine ⟨hal, hak, ?_⟩
          show l.advance_pos.remaining ≤ l.remaining
          omega
        · rw [if_neg hq]
          obtain ⟨ih1, ih2, ih3⟩ := ih l.advance_pos c (buf ++ [c])
          exact ⟨ih1.trans hal, ih2.trans hak, by omega⟩

/-- Two scanner states agreeing on all three fields are equal. -/
theorem lexer_eq_of {a b : Lexer} (h1 : a.lines = b.lines) (h2 : a.pos = b.pos)
    (h3 : a.ok = b.ok) : a = b := by
  cases a
  cases b
  dsimp only at h1 h2 h3
  rw [h1, h2, h3]

/-- When the predicate holds at the cursor character, `try_parse_char`
consumes it. -/
theorem try_parse_char_ok_of {l : Lexer} {c : Char} {p : Char → Bool}
    (hg : l.get_char = .ok c) (hp : p c = true) :
    l.try_parse_char p = (.ok c, l.advance_pos) := by
  unfold Lexer.try_parse_char Lexer.next_char
  rw [hg]
  simp [hp]

/-- Specification of the `read_while_to` wrapper. -/
theorem read_while_to_spec (l : Lexer) (p : Char → Bool) (buf : SpanData (List Char)) :
    (l.read_while_to p buf).2.lines = l.lines ∧
    (l.read_while_to p buf).2.ok = l.ok ∧
    buf.value.length ≤ (l.read_while_to p buf).1.value.length ∧
    (l.read_while_to p buf).2.remaining + (l.read_while_to p buf).1.value.length
      = l.remaining + buf.value.length ∧
    (((l.read_while_to p buf).2 = l ∧ (l.read_while_to p buf).1.value = buf.value) ∨
      ∃ (q : Lexer) (c : Char), q.get_char = .ok c ∧
        (l.read_while_to p buf).2 = q.advance_pos) :=
  read_while_to_fuel_spec p (l.remaining + 1) l buf

/-- Specification of `read_while`: text never shrinks the frame, each
appended character is one consumed cell, and the final state is either the
start state (empty read) or an advance image. -/
theorem read_while_spec (l : Lexer) (p : Char → Bool) :
    (l.read_while p).2.lines = l.lines ∧
    (l.read_while p).2.ok = l.ok ∧
    (l.read_while p).2.remaining + (l.read_while p).1.value.length = l.remaining ∧
    (((l.read_while p).2 = l ∧ (l.read_while p).1.value = []) ∨
      ∃ (q : Lexer) (c : Char), q.get_char = .ok c ∧ (l.read_while p).2 = q.advance_pos) := by
  have h := read_while_to_spec l p ⟨⟨l.pos, l.pos⟩, []⟩
  exact ⟨h.1, h.2.1, by have := h.2.2.2.1; simpa using this, h.2.2.2.2⟩

/-- Specification of the `skip_whitespace` wrapper. -/
theorem skip_whitespace_spec (l : Lexer) :
    l.skip_whitespace.lines = l.lines ∧ l.skip_whitespace.ok = l.ok ∧
    l.skip_whitespace.remaining ≤ l.remaining :=
  skip_whitespace_fuel_spec (l.remaining + 1) l

/-- The atom rule: an exact no-op on failure; on success it preserves the
frame and consumes at least one character. -/
theorem try_parse_atom_spec (l : Lexer) :
    (∀ e l1, l.try_parse_atom = (.error e, l1) → l1 = l) ∧
    (∀ t l1, l.try_parse_atom = (.ok t, l1) →
      l1.lines = l.lines ∧ l1.ok = l.ok ∧ l1.remaining < l.remaining) := by
  unfold Lexer.try_parse_atom Lexer.try_run
  rcases hc : l.try_parse_char is_atom_first_char with ⟨cres, lc⟩
  simp only [hc]
  cases cres with
  | error e0 =>
    have hlc : lc = l := try_parse_char_error hc
    subst hlc
    constructor
    · intro e l1 h
      simp only [Prod.mk.injEq] at h
      rw [← h.2]
    · intro t l1 h
      simp at h
  | ok first =>
    obtain ⟨hg, hp, hlc⟩ := try_parse_char_ok hc
    rcases hr : lc.read_while_to is_atom_char ⟨⟨l.pos, lc.pos⟩, [first]⟩ with ⟨res, l2⟩
    have hrw := read_while_to_spec lc is_atom_char ⟨⟨l.pos, lc.pos⟩, [first]⟩
    rw [hr] at hrw
    dsimp only at hrw
    obtain ⟨hl2, hk2, hmono, hacc, _⟩ := hrw
    simp only [hr]
    constructor
    · intro e l1 h
      simp at h
    · intro t l1 h
      simp only [Prod.mk.injEq] at h
      rw [← h.2]
      obtain ⟨hal, hak⟩ := advance_pos_lines_ok l
      have hrem := remaining_advance hg
      rw [hlc] at hl2 hk2 hacc
      refine ⟨hl2.trans hal, hk2.trans hak, ?_⟩
      simp only [List.length_cons, List.length_nil] at hmono hacc
      omega

/-- The symbol rule: an exact no-op on failure; on success it preserves
the frame and consumes at least one character (the empty run never
succeeds because the tree root holds no value). -/
theorem try_parse_symbol_spec (l : Lexer) :
    (∀ e l1, l.try_parse_symbol = (.error e, l1) → l1 = l) ∧
    (∀ t l1, l.try_parse_symbol = (.ok t, l1) →
      l1.lines = l.lines ∧ l1.ok = l.ok ∧ l1.remaining < l.remaining) := by
  unfold Lexer.try_parse_symbol Lexer.try_run
  rcases hr : l.read_while (fun ch => symbol_chars.contains ch) with ⟨run, l1'⟩
  have hrw := read_while_spec l (fun ch => symbol_chars.contains ch)
  rw [hr] at hrw
  dsimp only at hrw
  obtain ⟨hrl, hrk, hracc, _⟩ := hrw
  simp only [hr]
  cases hf : symbol_tree.find run.value with
  | none =>
    simp only [hf]
    constructor
    · intro e l1 h
      simp only [Prod.mk.injEq] at h
      rw [← h.2]
      exact lexer_eq_of hrl rfl hrk
    · intro t l1 h
      simp at h
  | some tok =>
    simp only [hf]
    constructor
    · intro e l1 h
      simp at h
    · intro t l1 h
      simp only [Prod.mk.injEq] at h
      rw [← h.2]
      have hne : run.value ≠ [] := by
        intro hv
        rw [hv] at hf
        rw [show symbol_tree.find [] = none from rfl] at hf
        exact Option.noConfusion hf
      have hlen : 1 ≤ run.value.length := by
        cases hvv : run.value with
        | nil => exact absurd hvv hne
        | cons a b => simp
      exact ⟨hrl, hrk, by omega⟩

/-- The string rule: an exact no-op on failure; failure happens exactly
when the cursor character is not a double quote; on success the frame is
preserved and at least the opening quote is consumed. -/
theorem try_parse_string_spec (l : Lexer) :
    (∀ e l1, l.try_parse_string = (.error e, l1) → l1 = l) ∧
    (∀ t l1, l.try_parse_string = (.ok t, l1) →
      l1.lines = l.lines ∧ l1.ok = l.ok ∧ l1.remaining < l.remaining) ∧
    ((∃ e l1, l.try_parse_string = (.error e, l1)) ↔ l.get_char ≠ .ok '"') := by
  unfold Lexer.try_parse_string Lexer.try_run
  rcases hc : l.try_parse_char (fun ch => ch = '"') with ⟨cres, lc⟩
  simp only [hc]
  cases cres with
  | error e0 =>
    have hlc : lc = l := try_parse_char_error hc
    subst hlc
    refine ⟨?_, ?_, ?_⟩
    · intro e l1 h
      simp only [Prod.mk.injEq] at h
      rw [← h.2]
    · intro t l1 h
      simp at h
    · constructor
      · intro _ hg
        rw [try_parse_char_ok_of hg (by simp)] at hc
        simp at hc
      · intro _
        exact ⟨e0, lc, rfl⟩
  | ok c0 =>
    obtain ⟨hg, hp, hlc⟩ := try_parse_char_ok hc
    have hq : c0 = '"' := of_decide_eq_true hp
    rcases hs : Lexer.string_loop_fuel (lc.remaining + 1) lc '"' [] with ⟨sbuf, l2⟩
    have hloop := string_loop_fuel_spec (lc.remaining + 1) lc '"' []
    rw [hs] at hloop
    dsimp only at hloop
    obtain ⟨hsl, hsk, hsr⟩ := hloop
    simp only [hs]
    obtain ⟨hal, hak⟩ := advance_pos_lines_ok l
    have hrem := remaining_advance hg
    refine ⟨?_, ?_, ?_⟩
    · intro e l1 h
      simp at h
    · intro t l1 h
      simp only [Prod.mk.injEq] at h
      rw [← h.2]
      rw [hlc] at hsl hsk hsr
      exact ⟨hsl.trans hal, hsk.trans hak, by omega⟩
    · constructor
      · rintro ⟨e, l1, h⟩
        simp at h
      · intro hne
        rw [hq] at hg
        exact absurd hg hne

/-- The number rule: an exact no-op on failure; on success the frame is
preserved and at least one character is consumed.  Every decrement it
performs sits right after a successful advance, so the ghost flag
survives every branch, including the branch that discards a nonempty
fraction. -/
theorem try_parse_number_spec (l : Lexer) :
    (∀ e l1, l.try_parse_number = (.error e, l1) → l1 = l) ∧
    (∀ d l1, l.try_parse_number = (.ok d, l1) →
      l1.lines = l.lines ∧ l1.ok = l.ok ∧ l1.remaining < l.remaining) := by
  have hparse_nil : parse_f64 [] = none := rfl
  unfold Lexer.try_parse_number Lexer.try_run
  rcases hr : l.read_while is_numeric with ⟨number, l1'⟩
  have hrw := read_while_spec l is_numeric
  rw [hr] at hrw
  dsimp only at hrw
  obtain ⟨hrl, hrk, hracc, _⟩ := hrw
  simp only [hr]
  rcases hn : l1'.next_char with ⟨nres, l2'⟩
  cases nres with
  | error e2 =>
    dsimp only
    obtain ⟨hl2, hge⟩ := next_char_error hn
    subst hl2
    cases hne : number.value.isEmpty with
    | true =>
      simp only [hne, Bool.not_true, Bool.false_eq_true, if_false]
      refine ⟨?_, ?_⟩
      · intro e l1 h
        simp only [Prod.mk.injEq] at h
        rw [← h.2]
        exact lexer_eq_of hrl rfl hrk
      · intro d l1 h
        simp at h
    | false =>
      simp only [hne, Bool.not_false, if_true]
      cases hpf : parse_f64 number.value with
      | none =>
        simp only [hpf]
        refine ⟨?_, ?_⟩
        · intro e l1 h
          simp only [Prod.mk.injEq] at h
          rw [← h.2]
          exact lexer_eq_of hrl rfl hrk
        · intro d l1 h
          simp at h
      | some q =>
        simp only [hpf]
        refine ⟨?_, ?_⟩
        · intro e l1 h
          simp at h
        · intro d l1 h
          simp only [Prod.mk.injEq] at h
          rw [← h.2]
          have hlen : 1 ≤ number.value.length := by
            cases hv : number.value with
            | nil => rw [hv] at hne; simp at hne
            | cons a b => simp
          exact ⟨hrl, hrk, by omega⟩
  | ok c =>
    dsimp only
    obtain ⟨hg2, hl2⟩ := next_char_ok hn
    have hL2 : l2'.lines = l1'.lines := by rw [hl2]; exact (advance_pos_lines_ok l1').1
    have hK2 : l2'.ok = l1'.ok := by rw [hl2]; exact (advance_pos_lines_ok l1').2
    have hR2 : l2'.remaining + 1 = l1'.remaining := by rw [hl2]; exact remaining_advance hg2
    by_cases hdot : c = '.'
    · subst hdot
      rw [if_pos rfl]
      rcases hp : l2'.read_while is_numeric with ⟨post, l3'⟩
      dsimp only
      have hpw := read_while_spec l2' is_numeric
      rw [hp] at hpw
      dsimp only at hpw
      obtain ⟨hpl, hpk, hpacc, hpcases⟩ := hpw
      cases hpe : post.value.isEmpty with
      | false =>
        simp only [hpe, Bool.not_false, if_true]
        have himg : ∃ (q0 : Lexer) (c0 : Char), q0.get_char = .ok c0 ∧ l3' = q0.advance_pos := by
          cases hpcases with
          | inl hl =>
            exfalso
            rw [hl.2] at hpe
            simp at hpe
          | inr hr2 => exact hr2
        obtain ⟨q0, c0, hq0, hl3⟩ := himg
        have hdec : l3'.decrement_pos = q0 := by rw [hl3]; exact advance_then_decrement hq0
        have hQL : l3'.lines = q0.lines := by rw [hl3]; exact (advance_pos_lines_ok q0).1
        have hQK : l3'.ok = q0.ok := by rw [hl3]; exact (advance_pos_lines_ok q0).2
        have hQR : l3'.remaining + 1 = q0.remaining := by rw [hl3]; exact remaining_advance hq0
        have hplen : 1 ≤ post.value.length := by
          cases hv : post.value with
          | nil => rw [hv] at hpe; simp at hpe
          | cons a b => simp
        cases hpf : parse_f64 number.value with
        | none =>
          simp only [hpf]
          refine ⟨?_, ?_⟩
          · intro e l1 h
            simp only [Prod.mk.injEq] at h
            rw [← h.2, hdec]
            exact lexer_eq_of (by rw [← hQL, hpl, hL2, hrl]) rfl (by rw [← hQK, hpk, hK2, hrk])
          · intro d l1 h
            simp at h
        | some q =>
          simp only [hpf]
          refine ⟨?_, ?_⟩
          · intro e l1 h
            simp at h
          · intro d l1 h
            simp only [Prod.mk.injEq] at h
            rw [← h.2, hdec]
            refine ⟨by rw [← hQL, hpl, hL2, hrl], by rw [← hQK, hpk, hK2, hrk], by omega⟩
      | true =>
        simp only [hpe, Bool.not_true, Bool.false_eq_true, if_false]
        cases hpf : parse_f64 (number.value ++ ['.'] ++ post.value) with
        | none =>
          simp only [hpf]
          refine ⟨?_, ?_⟩
          · intro e l1 h
            simp only [Prod.mk.injEq] at h
            rw [← h.2]
            exact lexer_eq_of (by rw [hpl, hL2, hrl]) rfl (by rw [hpk, hK2, hrk])
          · intro d l1 h
            simp at h
        | some q =>
          simp only [hpf]
          refine ⟨?_, ?_⟩
          · intro e l1 h
            simp at h
          · intro d l1 h
            simp only [Prod.mk.injEq] at h
            rw [← h.2]
            refine ⟨by rw [hpl, hL2, hrl], by rw [hpk, hK2, hrk], by omega⟩
    · rw [if_neg hdot]
      have hdec : l2'.decrement_pos = l1' := by rw [hl2]; exact advance_then_decrement hg2
      cases hpf : parse_f64 number.value with
      | none =>
        simp only [hpf]
        refine ⟨?_, ?_⟩
        · intro e l1 h
          simp only [Prod.mk.injEq] at h
          rw [← h.2, hdec]
          exact lexer_eq_of hrl rfl hrk
        · intro d l1 h
          simp at h
      | some q =>
        simp only [hpf]
        refine ⟨?_, ?_⟩
        · intro e l1 h
          simp at h
        · intro d l1 h
          simp only [Prod.mk.injEq] at h
          rw [← h.2, hdec]
          have hnen : number.value ≠ [] := by
            intro hv
            rw [hv, hparse_nil] at hpf
            exact Option.noConfusion hpf
          have hlen : 1 ≤ number.value.length := by
            cases hv : number.value with
            | nil => exact absurd hv hnen
            | cons a b => simp
          exact ⟨hrl, hrk, by omega⟩

/-- The wrapped number rule inherits the number rule's behaviour. -/
theorem try_parse_number_token_spec (l : Lexer) :
    (∀ e l1, l.try_parse_number_token = (.error e, l1) → l1 = l) ∧
    (∀ t l1, l.try_parse_number_token = (.ok t, l1) →
      l1.lines = l.lines ∧ l1.ok = l.ok ∧ l1.remaining < l.remaining) := by
  unfold Lexer.try_parse_number_token Lexer.try_run
  rcases hnum : l.try_parse_number with ⟨nres, ln1⟩
  simp only [hnum]
  cases nres with
  | error e0 =>
    have he : ln1 = l := (try_parse_number_spec l).1 e0 ln1 hnum
    subst he
    constructor
    · intro e l1 h
      simp only [Prod.mk.injEq] at h
      rw [← h.2]
    · intro t l1 h
      simp at h
  | ok num =>
    constructor
    · intro e l1 h
      simp at h
    · intro t l1 h
      simp only [Prod.mk.injEq] at h
      rw [← h.2]
      exact (try_parse_number_spec l).2 num ln1 hnum

/-- Rule dispatch: an error or end-of-stream leaves the scanner exactly
where dispatch began; a produced token preserves the frame and consumes at
least one character. -/
theorem next_token_at_spec (l0 : Lexer) :
    (∀ e l1, Lexer.next_token_at l0 = (.error e, l1) → l1 = l0) ∧
    (∀ l1, Lexer.next_token_at l0 = (.ok none, l1) → l1 = l0) ∧
    (∀ t l1, Lexer.next_token_at l0 = (.ok (some t), l1) →
      l1.lines = l0.lines ∧ l1.ok = l0.ok ∧ l1.remaining < l0.remaining) := by
  unfold Lexer.next_token_at
  by_cases hd : l0.is_done = true
  · simp only [hd, if_true]
    refine ⟨?_, ?_, ?_⟩
    · intro e l1 h
      simp at h
    · intro l1 h
      simp only [Prod.mk.injEq] at h
      exact h.2.symm
    · intro t l1 h
      simp at h
  · simp only [hd, Bool.false_eq_true, if_false]
    rcases ha : l0.try_parse_atom with ⟨ares, la⟩
    cases ares with
    | ok t0 =>
      dsimp only
      refine ⟨?_, ?_, ?_⟩
      · intro e l1 h
        simp at h
      · intro l1 h
        simp at h
      · intro t l1 h
        simp only [Prod.mk.injEq, Except.ok.injEq, Option.some.injEq] at h
        rw [← h.2]
        exact (try_parse_atom_spec l0).2 t0 la ha
    | error e0 =>
      dsimp only
      have hla : la = l0 := (try_parse_atom_spec l0).1 e0 la ha
      subst hla
      rcases hs : la.try_parse_string with ⟨sres, ls⟩
      cases sres with
      | ok t0 =>
        dsimp only
        refine ⟨?_, ?_, ?_⟩
        · intro e l1 h
          simp at h
        · intro l1 h
          simp at h
        · intro t l1 h
          simp only [Prod.mk.injEq, Except.ok.injEq, Option.some.injEq] at h
          rw [← h.2]
          exact (try_parse_string_spec la).2.1 t0 ls hs
      | error e1 =>
        dsimp only
        have hls : ls = la := (try_parse_string_spec la).1 e1 ls hs
        subst hls
        rcases hm : ls.try_parse_number_token with ⟨mres, lm⟩
        cases mres with
        | ok t0 =>
          dsimp only
          refine ⟨?_, ?_, ?_⟩
          · intro e l1 h
            simp at h
          · intro l1 h
            simp at h
          · intro t l1 h
            simp only [Prod.mk.injEq, Except.ok.injEq, Option.some.injEq] at h
            rw [← h.2]
            exact (try_parse_number_token_spec ls).2 t0 lm hm
        | error e2 =>
          dsimp only
          have hlm : lm = ls := (try_parse_number_token_spec ls).1 e2 lm hm
          subst hlm
          rcases hy : lm.try_parse_symbol with ⟨yres, ly⟩
          cases yres with
          | ok t0 =>
            dsimp only
            refine ⟨?_, ?_, ?_⟩
            · intro e l1 h
              simp at h
            · intro l1 h
              simp at h
            · intro t l1 h
              simp only [Prod.mk.injEq, Except.ok.injEq, Option.some.injEq] at h
              rw [← h.2]
              exact (try_parse_symbol_spec lm).2 t0 ly hy
          | error e3 =>
            dsimp only
            have hly : ly = lm := (try_parse_symbol_spec lm).1 e3 ly hy
            subst hly
            refine ⟨?_, ?_, ?_⟩
            · intro e l1 h
              simp only [Prod.mk.injEq] at h
              exact h.2.symm
            · intro l1 h
              simp at h
            · intro t l1 h
              simp at h

/-- One token step: an error or end-of-stream leaves the scanner exactly
at the post-whitespace-skip state; a produced token preserves the frame
and consumes at least one character relative to the pre-skip state. -/
theorem next_token_spec (l : Lexer) :
    (∀ e l1, l.next_token = (.error e, l1) → l1 = l.skip_whitespace) ∧
    (∀ l1, l.next_token = (.ok none, l1) → l1 = l.skip_whitespace) ∧
    (∀ t l1, l.next_token = (.ok (some t), l1) →
      l1.lines = l.lines ∧ l1.ok = l.ok ∧ l1.remaining < l.remaining) := by
  obtain ⟨hwl, hwk, hwr⟩ := skip_whitespace_spec l
  have h := next_token_at_spec l.skip_whitespace
  refine ⟨h.1, h.2.1, ?_⟩
  intro t l1 hh
  obtain ⟨h1, h2, h3⟩ := h.2.2 t l1 hh
  exact ⟨h1.trans hwl, h2.trans hwk, by omega⟩

/-- The token-stream loop preserves the frame, and a successful token list
is no longer than the number of remaining character cells. -/
theorem try_parse_tokens_fuel_spec : ∀ (fuel : Nat) (l : Lexer),
    (Lexer.try_parse_tokens_fuel fuel l).2.lines = l.lines ∧
    (Lexer.try_parse_tokens_fuel fuel l).2.ok = l.ok ∧
    ∀ ts, (Lexer.try_parse_tokens_fuel fuel l).1 = .ok ts → ts.length ≤ l.remaining := by
  intro fuel
  induction fuel with
  | zero =>
    intro l
    refine ⟨rfl, rfl, ?_⟩
    intro ts h
    unfold Lexer.try_parse_tokens_fuel at h
    simp only [Except.ok.injEq] at h
    rw [← h]
    simp
  | succ fuel ih =>
    intro l
    obtain ⟨hne, hnn, hns⟩ := next_token_spec l
    unfold Lexer.try_parse_tokens_fuel
    rcases hn : l.next_token with ⟨nres, l1⟩
    cases nres with
    | error e =>
      dsimp only
      have hl1 : l1 = l.skip_whitespace := hne e l1 hn
      obtain ⟨hwl, hwk, hwr⟩ := skip_whitespace_spec l
      refine ⟨by rw [hl1, hwl], by rw [hl1, hwk], ?_⟩
      intro ts h
      simp at h
    | ok o =>
      cases o with
      | none =>
        dsimp only
        have hl1 : l1 = l.skip_whitespace := hnn l1 hn
        obtain ⟨hwl, hwk, hwr⟩ := skip_whitespace_spec l
        refine ⟨by rw [hl1, hwl], by rw [hl1, hwk], ?_⟩
        intro ts h
        simp only [Except.ok.injEq] at h
        rw [← h]
        simp
      | some t =>
        dsimp only
        obtain ⟨h1, h2, h3⟩ := hns t l1 hn
        obtain ⟨ihl, ihk, ihs⟩ := ih l1
        rcases hrec : Lexer.try_parse_tokens_fuel fuel l1 with ⟨rres, l2⟩
        rw [hrec] at ihl ihk ihs
        dsimp only at ihl ihk ihs
        cases rres with
        | error e =>
          dsimp only
          refine ⟨by rw [ihl, h1], by rw [ihk, h2], ?_⟩
          intro ts h
          simp at h
        | ok ts0 =>
          dsimp only
          refine ⟨by rw [ihl, h1], by rw [ihk, h2], ?_⟩
          intro ts h
          simp only [Except.ok.injEq] at h
          rw [← h]
          have := ihs ts0 rfl
          simp only [List.length_cons]
          omega

/-- Whole-input tokenization preserves the line buffer and the ghost
flag, and a successful token list is bounded by the remaining cells. -/
theorem try_parse_tokens_spec (l : Lexer) :
    (l.try_parse_tokens).2.lines = l.lines ∧ (l.try_parse_tokens).2.ok = l.ok ∧
    ∀ ts, (l.try_parse_tokens).1 = .ok ts → ts.length ≤ l.remaining :=
  try_parse_tokens_fuel_spec (l.remaining + 1) l

/-- Lookup after updating the same key finds the new child. -/
theorem childLookup_update_self {T : Type} (cs : List (Char × PrefixNode T)) (c : Char)
    (n : PrefixNode T) : childLookup (childUpdate cs c n) c = some n := by
  induction cs with
  | nil => simp [childUpdate, childLookup]
  | cons p rest ih =>
    obtain ⟨c0, n0⟩ := p
    by_cases hc : c = c0
    · subst hc
      simp [childUpdate, childLookup]
    · simp [childUpdate, childLookup, hc, ih]

/-- Lookup at a different key is unchanged by an update. -/
theorem childLookup_update_other {T : Type} (cs : List (Char × PrefixNode T)) (c c' : Char)
    (n : PrefixNode T) (h : c' ≠ c) :
    childLookup (childUpdate cs c n) c' = childLookup cs c' := by
  induction cs with
  | nil => simp [childUpdate, childLookup, h]
  | cons p rest ih =>
    obtain ⟨c0, n0⟩ := p
    by_cases hc : c = c0
    · subst hc
      simp [childUpdate, childLookup, h]
    · simp only [childUpdate, if_neg hc, childLookup]
      by_cases hc' : c' = c0
      · simp [hc']
      · simp [hc', ih]

/-- Lookup value at the empty key is the root value. -/
theorem findValue_nil {T : Type} (n : PrefixNode T) : n.findValue [] = n.val := rfl

/-- Lookup value at a nonempty key steps through one child link. -/
theorem findValue_cons {T : Type} (n : PrefixNode T) (c : Char) (rest : List Char) :
    n.findValue (c :: rest) =
      match childLookup n.children c with
      | none => none
      | some child => child.findValue rest := by
  cases hcl : childLookup n.children c with
  | none => simp only [PrefixNode.findValue, PrefixNode.find, hcl]
  | some child => simp only [PrefixNode.findValue, PrefixNode.find, hcl]

/-- The empty node holds no value at any key. -/
theorem findValue_empty {T : Type} : ∀ key : List Char,
    (PrefixNode.mk (T := T) none []).findValue key = none
  | [] => rfl
  | _ :: _ => by rw [findValue_cons]; rfl

/-- Children after inserting a nonempty key. -/
theorem insert_cons_children {T : Type} (val : Option T) (cs : List (Char × PrefixNode T))
    (c : Char) (rest : List Char) (v : T) :
    (PrefixNode.insert (.mk val cs) (c :: rest) v).children =
      childUpdate cs c
        ((match childLookup cs c with
          | some child => child
          | none => PrefixNode.mk none []).insert rest v) := rfl

/-- Root value after inserting a nonempty key. -/
theorem insert_cons_val {T : Type} (val : Option T) (cs : List (Char × PrefixNode T))
    (c : Char) (rest : List Char) (v : T) :
    (PrefixNode.insert (.mk val cs) (c :: rest) v).val = val := rfl

/-- Inserting a key makes its value retrievable. -/
theorem findValue_insert_self {T : Type} : ∀ (key : List Char) (n : PrefixNode T) (v : T),
    (n.insert key v).findValue key = some v := by
  intro key
  induction key with
  | nil =>
    intro n v
    cases n with
    | mk val cs => rfl
  | cons c rest ih =>
    intro n v
    cases n with
    | mk val cs =>
      rw [findValue_cons, insert_cons_children, childLookup_update_self]
      exact ih _ v

/-- Inserting a key leaves every other key's lookup unchanged. -/
theorem findValue_insert_other {T : Type} : ∀ (key key' : List Char) (n : PrefixNode T) (v : T),
    key' ≠ key → (n.insert key v).findValue key' = n.findValue key' := by
  intro key
  induction key with
  | nil =>
    intro key' n v hne
    cases n with
    | mk val cs =>
      cases key' with
      | nil => exact absurd rfl hne
      | cons c' rest' =>
        rw [findValue_cons, findValue_cons]
        rfl
  | cons c rest ih =>
    intro key' n v hne
    cases n with
    | mk val cs =>
      cases key' with
      | nil =>
        rw [findValue_nil, findValue_nil, insert_cons_val]
        rfl
      | cons c' rest' =>
        rw [findValue_cons, findValue_cons, insert_cons_children]
        dsimp only [PrefixNode.children]
        by_cases hc : c' = c
        · subst hc
          have hrne : rest' ≠ rest := fun hr => hne (by rw [hr])
          rw [childLookup_update_self]
          cases hcl : childLookup cs c' with
          | none =>
            dsimp only
            rw [ih rest' _ v hrne, findValue_empty]
          | some child =>
            dsimp only
            rw [ih rest' _ v hrne]
        · rw [childLookup_update_other cs c c' _ hc]

/-- Folding insertions over pairs whose keys avoid `s` never changes the
lookup at `s`. -/
theorem findValue_foldl_not_mem {T : Type} :
    ∀ (ps : List (List Char × T)) (n : PrefixNode T) (s : List Char),
    s ∉ ps.map Prod.fst →
    (ps.foldl (fun acc p => acc.insert p.1 p.2) n).findValue s = n.findValue s := by
  intro ps
  induction ps with
  | nil =>
    intro n s _
    rfl
  | cons p rest ih =>
    intro n s h
    simp only [List.map_cons, List.mem_cons] at h
    push_neg at h
    rw [List.foldl_cons, ih _ _ h.2]
    exact findValue_insert_other p.1 s n p.2 h.1

/-- With duplicate-free keys, folding the insertions makes every listed
pair's value retrievable at its key. -/
theorem findValue_foldl_mem {T : Type} :
    ∀ (ps : List (List Char × T)) (n : PrefixNode T) (k : List Char) (v : T),
    (ps.map Prod.fst).Nodup → (k, v) ∈ ps →
    (ps.foldl (fun acc p => acc.insert p.1 p.2) n).findValue k = some v := by
  intro ps
  induction ps with
  | nil =>
    intro n k v _ hmem
    simp at hmem
  | cons p rest ih =>
    intro n k v hnd hmem
    obtain ⟨pk, pv⟩ := p
    rw [List.foldl_cons]
    simp only [List.map_cons, List.nodup_cons] at hnd
    cases List.mem_cons.mp hmem with
    | inl heq =>
      simp only [Prod.mk.injEq] at heq
      obtain ⟨hk, hv⟩ := heq
      subst hk
      subst hv
      rw [findValue_foldl_not_mem rest _ k hnd.1]
      exact findValue_insert_self k n v
    | inr hmem2 =>
      exact ih _ k v hnd.2 hmem2

/-- The bulk-built tree's root is the fold of node insertions. -/
theorem fromList_root {T : Type} (ps : List (List Char × T)) :
    (PrefixTree.fromList ps).root
      = ps.foldl (fun acc p => acc.insert p.1 p.2) (PrefixNode.mk none []) := by
  have hgen : ∀ (qs : List (List Char × T)) (t : PrefixTree T),
      (qs.foldl (fun t p => t.insert p.1 p.2) t).root
        = qs.foldl (fun acc p => acc.insert p.1 p.2) t.root := by
    intro qs
    induction qs with
    | nil => intro t; rfl
    | cons q rest ih =>
      intro t
      rw [List.foldl_cons, List.foldl_cons, ih]
      rfl
  exact hgen ps PrefixTree.new

/-- Tree lookup is root lookup. -/
theorem find_eq_findValue {T : Type} (t : PrefixTree T) (key : List Char) :
    t.find key = t.root.findValue key := rfl

/-- C1 (code bug): the spec says `12.5` lexes to one `Number 12.5` and a
trailing lone `.` is left unconsumed, but the swapped branch in
`try_parse_number` discards the fraction after consuming the point:
`"let x = 12.5;\n"` lexes to `.., Number 12, Number 5, ..` with no
`Number 12.5`, and `"123."` lexes to a single `Number 123` with no
`Period` token. -/
theorem number_rule_drops_fraction :
    ((Lexer.new "let x = 12.5;\n".toList).try_parse_tokens).1.map
        (fun ts => ts.map SpanData.value)
      = .ok [.Let, .Identifier "x".toList, .Equals, .Number 12, .Number 5, .Semicolon] ∧
    ((Lexer.new "123.".toList).try_parse_tokens).1.map (fun ts => ts.map SpanData.value)
      = .ok [.Number 123] := by
  refine ⟨rfl, ?_⟩
  have h : ((Lexer.new "123.".toList).try_parse_tokens).1.map (fun ts => ts.map SpanData.value)
      = .ok [.Number ((123 : ℚ) + (0 : ℚ) / (10 : ℚ) ^ (0 : ℕ))] := rfl
  rw [h]
  norm_num

/-- C2 counterexample: contrary to the claim, `";"` IS a symbol-class
character (it is itself a registered symbol), so on `"=;"` the greedy run
accumulates both characters, the lookup of `"=;"` fails, and tokenization
errors with `UnknownSymbol "=;"` instead of producing `Equals` then
`Semicolon`. -/
theorem symbol_run_consumes_semicolon :
    ((Lexer.new "=;".toList).try_parse_tokens).1 = .error (.UnknownSymbol "=;".toList) ∧
    ((Lexer.new "=;".toList).try_parse_tokens).1.map (fun ts => ts.map SpanData.value)
      ≠ .ok [.Equals, .Semicolon] := by
  refine ⟨rfl, ?_⟩
  decide

/-- C2 amended: symbol scanning is greedy by character class, so `"=="`
lexes to the single `DoubleEquals` token; but `";"` is a symbol-class
character, so on `"=;"` the rule accumulates the run `"=;"`, its lookup
fails, and tokenization stops with `UnknownSymbol "=;"`. -/
theorem symbol_greedy_by_class :
    ((Lexer.new "==".toList).try_parse_tokens).1.map (fun ts => ts.map SpanData.value)
      = .ok [.DoubleEquals] ∧
    symbol_chars.contains ';' = true ∧
    ((Lexer.new "=;".toList).try_parse_tokens).1 = .error (.UnknownSymbol "=;".toList) :=
  ⟨rfl, rfl, rfl⟩

/-- C3 (code bug): on `"1.5"` the emitted spans cover `"1"` and `"5"`
only; the `"."` between them was consumed by the number rule, lies in no
token span, and is not whitespace, so no concatenation of the spanned
substrings with skipped whitespace runs can rebuild `"1.5"`. -/
theorem roundtrip_fails_on_swallowed_dot :
    (Lexer.new "1.5".toList).try_parse_tokens
      = (.ok [⟨⟨⟨0, 0⟩, ⟨0, 1⟩⟩, .Number 1⟩, ⟨⟨⟨0, 2⟩, ⟨1, 0⟩⟩, .Number 5⟩],
         ⟨split_lines "1.5".toList, ⟨1, 0⟩, true⟩) ∧
    textBetween (split_lines "1.5".toList) ⟨0, 0⟩ ⟨0, 1⟩
        ++ textBetween (split_lines "1.5".toList) ⟨0, 2⟩ ⟨1, 0⟩ = "15".toList ∧
    textBetween (split_lines "1.5".toList) ⟨0, 1⟩ ⟨0, 2⟩ = ".".toList ∧
    is_whitespace '.' = false :=
  ⟨rfl, rfl, rfl, rfl⟩

/-- C4: whichever of the four scanning rules fails, the cursor after the
attempt equals the cursor before it. -/
theorem failed_rule_restores_cursor (l l1 : Lexer) (e : LexError)
    (h : l.try_parse_atom = (.error e, l1) ∨ l.try_parse_string = (.error e, l1) ∨
         l.try_parse_number = (.error e, l1) ∨ l.try_parse_symbol = (.error e, l1)) :
    l1.pos = l.pos := by
  rcases h with h | h | h | h
  · rw [(try_parse_atom_spec l).1 e l1 h]
  · rw [(try_parse_string_spec l).1 e l1 h]
  · rw [(try_parse_number_spec l).1 e l1 h]
  · rw [(try_parse_symbol_spec l).1 e l1 h]

/-- Witness for C4: the atom rule fails on the digit input `"1"` and the
cursor is unchanged. -/
theorem failed_rule_restores_cursor_witness :
    (Lexer.new "1".toList).try_parse_atom = (.error .ExpectedAtom, Lexer.new "1".toList) ∧
    (Lexer.new "1".toList).pos = (Lexer.new "1".toList).pos :=
  ⟨rfl, failed_rule_restores_cursor (Lexer.new "1".toList) (Lexer.new "1".toList)
      .ExpectedAtom (Or.inl rfl)⟩

/-- C5 counterexample: on the unterminated literal consisting of `"`,
`a`, `b` with no closing quote, the string rule does not fail: it
consumes to end of input and returns a `String` token. -/
theorem unterminated_string_accepted :
    (Lexer.new ['"', 'a', 'b']).try_parse_string
      = (.ok ⟨⟨⟨0, 0⟩, ⟨1, 0⟩⟩, .String ['a', 'b']⟩,
         ⟨[['"', 'a', 'b']], ⟨1, 0⟩, true⟩) := rfl

/-- C5 amended: the string rule fails exactly when the cursor character
is not an opening `"`; with an opening quote but no closing one it still
succeeds, consuming to end of input and returning a `String` token of the
accumulated content. -/
theorem string_rule_fails_iff_no_quote (l : Lexer) :
    (∃ e l1, l.try_parse_string = (.error e, l1)) ↔ l.get_char ≠ .ok '"' :=
  (try_parse_string_spec l).2.2

/-- Witness for C5: on input `"a"` (no quote) the string rule fails. -/
theorem string_rule_fails_iff_no_quote_witness :
    ∃ e l1, (Lexer.new ['a']).try_parse_string = (.error e, l1) :=
  (string_rule_fails_iff_no_quote (Lexer.new ['a'])).mpr
    (fun h => absurd (Except.ok.inj h) (by decide))

/-- C6: for a trie bulk-built from a duplicate-free key list, `find`
returns the inserted value at every exact key, and `none` at every string
that is a strict prefix of some key but was not itself inserted. -/
theorem prefixTree_find_spec {T : Type} (ps : List (List Char × T))
    (hnd : (ps.map Prod.fst).Nodup) :
    (∀ k v, (k, v) ∈ ps → (PrefixTree.fromList ps).find k = some v) ∧
    (∀ s, (∃ p, p ∈ ps ∧ (∃ r, s ++ r = p.1) ∧ s ≠ p.1) → s ∉ ps.map Prod.fst →
      (PrefixTree.fromList ps).find s = none) := by
  constructor
  · intro k v hmem
    rw [find_eq_findValue, fromList_root]
    exact findValue_foldl_mem ps _ k v hnd hmem
  · intro s _ hnot
    rw [find_eq_findValue, fromList_root, findValue_foldl_not_mem ps _ s hnot]
    exact findValue_empty s

/-- Witness for C6 on the one-key table `ab ↦ 1`: the exact key is found
and its strict prefix `a` is not. -/
theorem prefixTree_find_spec_witness :
    (PrefixTree.fromList [("ab".toList, 1)]).find "ab".toList = some 1 ∧
    (PrefixTree.fromList [("ab".toList, 1)]).find "a".toList = none :=
  ⟨(prefixTree_find_spec [("ab".toList, 1)] (by simp)).1 "ab".toList 1 (by simp),
   (prefixTree_find_spec [("ab".toList, 1)] (by simp)).2 "a".toList
     ⟨("ab".toList, 1), by simp, ⟨['b'], by decide⟩, by decide⟩ (by decide)⟩

/-- C7: wherever a character exists, advancing and then retreating
restores exactly the original row and column. -/
theorem advance_retreat_exact (l : Lexer) (c : Char) (h : l.get_char = .ok c) :
    l.advance_pos.decrement_pos.pos.row = l.pos.row ∧
    l.advance_pos.decrement_pos.pos.col = l.pos.col := by
  rw [advance_then_decrement h]
  exact ⟨rfl, rfl⟩

/-- Witness for C7 at the start of input `"ab"`. -/
theorem advance_retreat_exact_witness :
    (Lexer.new "ab".toList).get_char = .ok 'a' ∧
    (Lexer.new "ab".toList).advance_pos.decrement_pos.pos.row
        = (Lexer.new "ab".toList).pos.row ∧
    (Lexer.new "ab".toList).advance_pos.decrement_pos.pos.col
        = (Lexer.new "ab".toList).pos.col :=
  ⟨rfl, advance_retreat_exact (Lexer.new "ab".toList) 'a' rfl⟩

/-- C8: producing a token strictly reduces the count of character cells
at or after the cursor, and a successful whole-input tokenization yields
at most one token per remaining cell — the loop variant that makes
`try_parse_tokens` halt on every finite input. -/
theorem token_production_consumes (l : Lexer) :
    (∀ t l1, l.next_token = (.ok (some t), l1) → l1.remaining < l.remaining) ∧
    (∀ ts, (l.try_parse_tokens).1 = .ok ts → ts.length ≤ l.remaining) :=
  ⟨fun t l1 h => ((next_token_spec l).2.2 t l1 h).2.2, (try_parse_tokens_spec l).2.2⟩

/-- Witness for C8 on input `"a"`: the identifier token consumed the only
cell. -/
theorem token_production_consumes_witness :
    (Lexer.new "a".toList).next_token
        = (.ok (some ⟨⟨⟨0, 0⟩, ⟨1, 0⟩⟩, .Identifier ['a']⟩), ⟨[['a']], ⟨1, 0⟩, true⟩) ∧
    (⟨[['a']], ⟨1, 0⟩, true⟩ : Lexer).remaining < (Lexer.new "a".toList).remaining :=
  ⟨rfl, (token_production_consumes (Lexer.new "a".toList)).1
      ⟨⟨⟨0, 0⟩, ⟨1, 0⟩⟩, .Identifier ['a']⟩ ⟨[['a']], ⟨1, 0⟩, true⟩ rfl⟩

/-- C9: tokenizing any input from a fresh scanner never underflows the
cursor arithmetic: the ghost flag that `decrement_pos` clears on any
unsigned underflow is still set afterwards, because every retreat the
scanner performs happens right after a successful advance. -/
theorem no_cursor_underflow (src : List Char) :
    ((Lexer.new src).try_parse_tokens).2.ok = true :=
  (try_parse_tokens_spec (Lexer.new src)).2.1

/-- C10: when `next_token` errors, the scanner is left exactly at the
state reached after the whitespace skip — the skipped whitespace is not
restored, even though each individual rule restored its own
consumption. -/
theorem error_leaves_cursor_after_whitespace (l l1 : Lexer) (e : LexError)
    (h : l.next_token = (.error e, l1)) : l1 = l.skip_whitespace :=
  (next_token_spec l).1 e l1 h

/-- Witness for C10 on input `" @"`: the error state sits after the
skipped blank, one column past the pre-call cursor. -/
theorem error_leaves_cursor_after_whitespace_witness :
    (Lexer.new " @".toList).next_token
        = (.error (.UnknownSymbol []), ⟨[[' ', '@']], ⟨0, 1⟩, true⟩) ∧
    (⟨[[' ', '@']], ⟨0, 1⟩, true⟩ : Lexer) = (Lexer.new " @".toList).skip_whitespace ∧
    (Lexer.new " @".toList).skip_whitespace.pos ≠ (Lexer.new " @".toList).pos :=
  ⟨rfl,
   error_leaves_cursor_after_whitespace (Lexer.new " @".toList)
     ⟨[[' ', '@']], ⟨0, 1⟩, true⟩ (.UnknownSymbol []) rfl,
   by decide⟩

end RScript